import Mathlib

/-!
# Verification of the pair/triplet data-generation core of `lr_face/data.py`

The repository ships the test suite (`src/tests/test_data.py`) for the module
`lr_face/data.py`, but the module itself is not among the provided sources.
The definitions below are therefore shallow embeddings reconstructed from the
specification's description of `FaceImage` / `FacePair` / `FaceTriplet`,
`make_pairs`, `make_triplets`, `split_by_identity` and `to_array`, reconciled
with the behaviour pinned by the test suite wherever the specification's prose
is ambiguous or inconsistent with the test suite's asserted values.
-/

namespace LrFace

/-- Modelled from the spec: a labelled reference to a face photo
(`path`, `identity`).  The optional metadata mapping plays no role in any of
the sampling operations and is omitted.  Paths double as distinguishing tags
so that positional statements about outputs ("triplet i's anchor is input
element 2i") can be expressed by value equality, mirroring Python object
identity for fixture images. -/
structure FaceImage where
  path : String
  identity : String
deriving DecidableEq, Repr

/-- Modelled from the spec: `{first, second}`, no ordering invariant. -/
structure FacePair where
  first : FaceImage
  second : FaceImage
deriving DecidableEq, Repr

/-- Modelled from the spec: derived attribute
`same_identity = (first.identity == second.identity)`. -/
def FacePair.same_identity (p : FacePair) : Bool :=
  p.first.identity == p.second.identity

/-- Modelled from the spec's error taxonomy (§7): `InvalidTripletError`,
`EmptyInputError`, `ShapeMismatchError` — all `ValueError`-kind failures. -/
inductive DataError where
  | invalidTriplet
  | emptyInput
  | shapeMismatch
deriving DecidableEq, Repr

/-- Modelled from the spec: `{anchor, positive, negative}` with the invariant
`anchor.identity == positive.identity` and `anchor.identity != negative.identity`
enforced at construction, so that the entity never exists in an invalid
state.  The invariant is carried as proof fields. -/
structure FaceTriplet where
  anchor : FaceImage
  positive : FaceImage
  negative : FaceImage
  pos_eq : anchor.identity = positive.identity
  neg_ne : anchor.identity ≠ negative.identity

/-- Modelled from the spec: the checked constructor of `FaceTriplet`.
Raising `ValueError` is modelled as returning `.error .invalidTriplet`. -/
def FaceTriplet.make (a p n : FaceImage) : Except DataError FaceTriplet :=
  if h1 : a.identity = p.identity then
    if h2 : a.identity = n.identity then
      .error .invalidTriplet
    else
      .ok ⟨a, p, n, h1, h2⟩
  else
    .error .invalidTriplet

/-- One step of the insertion-ordered grouping of images by identity
(spec §9: "build an explicit ordered mapping from identity to the list of
member images (insertion-ordered)"): append the image to its identity's
group if present, otherwise open a new group at the end. -/
def addToGroups (groups : List (String × List FaceImage)) (img : FaceImage) :
    List (String × List FaceImage) :=
  match groups with
  | [] => [(img.identity, [img])]
  | (i, mem) :: rest =>
      if i = img.identity then (i, mem ++ [img]) :: rest
      else (i, mem) :: addToGroups rest img

/-- Modelled from the spec: group a sequence of images by identity, groups
ordered by first occurrence, members in input order. -/
def groupByIdentity (images : List FaceImage) : List (String × List FaceImage) :=
  images.foldl addToGroups []

/-- All unordered element pairs of a list in the deterministic
`itertools.combinations` order: (0,1), (0,2), …, (1,2), … . -/
def combinations2 {α : Type} : List α → List (α × α)
  | [] => []
  | x :: xs => xs.map (fun y => (x, y)) ++ combinations2 xs

/-- Modelled from the spec (§4.1): for every identity group of size k, all
C(k,2) intra-group pairs, in group-first-occurrence order, then by index
position within the group. -/
def positivePairs (images : List FaceImage) : List FacePair :=
  (groupByIdentity images).flatMap
    (fun g => (combinations2 g.2).map (fun q => FacePair.mk q.1 q.2))

/-- Modelled from the spec (§4.1): cross-group pairs, first group's images
outer, second group's inner.  The spec's phrase "every unordered pair of
distinct identity groups" conflicts with its own asserted count of 94 negative
pairs on the 11-image fixture and with the index milestones asserted by
`src/tests/test_data.py:235-243`; both pin enumeration over *ordered* pairs of
distinct groups (each group in first-occurrence order paired with every other
group), which is what is modelled here. -/
def negativePairs (images : List FaceImage) : List FacePair :=
  let groups := groupByIdentity images
  groups.flatMap (fun g1 =>
    (groups.filter (fun g2 => g2.1 != g1.1)).flatMap (fun g2 =>
      g1.2.flatMap (fun a => g2.2.map (fun b => FacePair.mk a b))))

/-- Modelled from the spec (§4.1): `make_pairs(images, same, n)`.
`same = some true` → positive pairs only, `some false` → negative only,
`none` → both classes, balanced by truncating the larger class to the
smaller one's length; a given `n` truncates to the first `n` in enumeration
order (split as ⌈n/2⌉ positive + ⌊n/2⌋ negative when both classes are
requested, each share capped at the balanced availability with no
redistribution of shortfall). -/
def make_pairs (images : List FaceImage) (same : Option Bool) (n : Option Nat) :
    List FacePair :=
  match same with
  | some true =>
      let pos := positivePairs images
      match n with
      | none => pos
      | some k => pos.take k
  | some false =>
      let neg := negativePairs images
      match n with
      | none => neg
      | some k => neg.take k
  | none =>
      let pos := positivePairs images
      let neg := negativePairs images
      let m := min pos.length neg.length
      match n with
      | none => pos.take m ++ neg.take m
      | some k => (pos.take m).take ((k + 1) / 2) ++ (neg.take m).take (k / 2)

/-- Modelled from the spec and the test suite: `make_triplets(images)` builds
one triplet per anchor–positive pair, where the anchor–positive pairs are all
intra-group combinations in `positivePairs` order (the spec's §4.2 prose says
"consecutive non-overlapping pairs × every outside image as negative", but
that predicts 40 and 720 triplets on the two fixtures of
`src/tests/test_data.py:295-309`, whose assertions pin 5 and 60 — exactly one
triplet per intra-group combination).  The negative is drawn at random among
the images of all other identities; the draw is modelled by the selection
function `sel`, quantified over in the theorems, so every result below holds
for every outcome of the randomness. -/
def make_triplets (sel : List FaceImage → Option FaceImage)
    (images : List FaceImage) : List FaceTriplet :=
  (positivePairs images).filterMap (fun pr =>
    (sel (images.filter (fun img => img.identity != pr.first.identity))).bind
      (fun neg => (FaceTriplet.make pr.first pr.second neg).toOption))

/-- The spec's §4.2 prose taken at its word (a second definition kept for
comparison against `make_triplets`): pair consecutive images of each group
(0&1, 2&3, …, odd leftover discarded) and combine every such anchor–positive
pair with every image of every other group as negative. -/
def consecPairs {α : Type} : List α → List (α × α)
  | a :: b :: rest => (a, b) :: consecPairs rest
  | _ => []

/-- The spec's §4.2 prose taken at its word, continued: the triplet list it
describes (returned as bare image triples, no invariant proofs needed). -/
def make_triplets_specProse (images : List FaceImage) :
    List (FaceImage × FaceImage × FaceImage) :=
  let groups := groupByIdentity images
  groups.flatMap (fun g =>
    (consecPairs g.2).flatMap (fun ap =>
      (groups.filter (fun h => h.1 != g.1)).flatMap (fun h =>
        h.2.map (fun neg => (ap.1, ap.2, neg)))))

/-- The 11-image dummy fixture of `src/tests/test_data.py:42-45`:
identity multiset {TEST-1:3, TEST-2:3, TEST-3:2, TEST-4:2, TEST-5:1}. -/
def fixture11 : List FaceImage :=
  ([1, 1, 1, 2, 2, 2, 3, 3, 4, 4, 5]).map
    (fun i => ⟨"", "TEST-" ++ toString i⟩)

/-- The 10-image fixture of `test_make_triplets_one_pair_per_identity`
(`src/tests/test_data.py:295-302`): identities `str(i // 2)`, five identity
groups of size 2.  Paths number the input positions. -/
def data10 : List FaceImage :=
  (List.range 10).map (fun i => ⟨toString i, toString (i / 2)⟩)

/-- The 40-image fixture of `test_make_triplets_six_pairs_per_identity`
(`src/tests/test_data.py:305-309`): identities `str(i // 4)`, ten identity
groups of size 4. -/
def data40 : List FaceImage :=
  (List.range 40).map (fun i => ⟨toString i, toString (i / 4)⟩)

/-- A 4-image input with one identity group of size 3 and one of size 1,
exhibiting the difference between consecutive pairing and full intra-group
combinations. -/
def imgs4 : List FaceImage :=
  [⟨"0", "A"⟩, ⟨"1", "A"⟩, ⟨"2", "A"⟩, ⟨"3", "B"⟩]

/-- Well-formedness of an identity-group list: every member carries its
group's key, keys are pairwise distinct, and no group is empty. -/
def GroupsWF (gs : List (String × List FaceImage)) : Prop :=
  (∀ g ∈ gs, ∀ x ∈ g.2, x.identity = g.1) ∧
    (gs.map Prod.fst).Nodup ∧ (∀ g ∈ gs, g.2 ≠ [])

theorem addToGroups_keys (gs : List (String × List FaceImage)) (img : FaceImage) :
    (addToGroups gs img).map Prod.fst =
      if img.identity ∈ gs.map Prod.fst then gs.map Prod.fst
      else gs.map Prod.fst ++ [img.identity] := by
  induction gs with
  | nil => simp [addToGroups]
  | cons g rest ih =>
    obtain ⟨i, mem⟩ := g
    by_cases hi : i = img.identity
    · simp [addToGroups, hi]
    · have hcond : (img.identity ∈ ((i, mem) :: rest :
          List (String × List FaceImage)).map Prod.fst) ↔
          img.identity ∈ rest.map Prod.fst := by
        simp only [List.map_cons, List.mem_cons]
        constructor
        · rintro (h | h)
          · exact absurd h.symm hi
          · exact h
        · exact Or.inr
      by_cases hm : img.identity ∈ rest.map Prod.fst
      · rw [if_pos (hcond.mpr hm)]
        simp [addToGroups, hi, ih, hm]
      · rw [if_neg (fun h => hm (hcond.mp h))]
        simp [addToGroups, hi, ih, hm]

theorem addToGroups_wf (gs : List (String × List FaceImage)) (img : FaceImage)
    (h : GroupsWF gs) : GroupsWF (addToGroups gs img) := by
  obtain ⟨hid, hnd, hne⟩ := h
  refine ⟨?_, ?_, ?_⟩
  · induction gs with
    | nil =>
      intro g hg x hx
      simp [addToGroups] at hg
      subst hg
      simp at hx
      subst hx
      rfl
    | cons g0 rest ih =>
      obtain ⟨i, mem⟩ := g0
      intro g hg x hx
      by_cases hi : i = img.identity
      · simp only [addToGroups, if_pos hi] at hg
        rcases List.mem_cons.mp hg with hg | hg
        · subst hg
          rcases List.mem_append.mp hx with hx | hx
          · exact hid ⟨i, mem⟩ (List.mem_cons_self _ _) x hx
          · simp at hx
            subst hx
            exact hi.symm
        · exact hid g (List.mem_cons_of_mem _ hg) x hx
      · simp only [addToGroups, if_neg hi] at hg
        rcases List.mem_cons.mp hg with hg | hg
        · subst hg
          exact hid ⟨i, mem⟩ (List.mem_cons_self _ _) x hx
        · exact ih (fun g' hg' => hid g' (List.mem_cons_of_mem _ hg'))
            (List.Nodup.of_cons hnd)
            (fun g' hg' => hne g' (List.mem_cons_of_mem _ hg')) g hg x hx
  · rw [addToGroups_keys]
    split
    · exact hnd
    · next hm => simp [List.nodup_append, hnd, hm]
  · induction gs with
    | nil =>
      intro g hg
      simp [addToGroups] at hg
      subst hg
      simp
    | cons g0 rest ih =>
      obtain ⟨i, mem⟩ := g0
      intro g hg
      by_cases hi : i = img.identity
      · simp only [addToGroups, if_pos hi] at hg
        rcases List.mem_cons.mp hg with hg | hg
        · subst hg
          simp
        · exact hne g (List.mem_cons_of_mem _ hg)
      · simp only [addToGroups, if_neg hi] at hg
        rcases List.mem_cons.mp hg with hg | hg
        · subst hg
          exact hne ⟨i, mem⟩ (List.mem_cons_self _ _)
        · exact ih (fun g' hg' => hid g' (List.mem_cons_of_mem _ hg'))
            (List.Nodup.of_cons hnd)
            (fun g' hg' => hne g' (List.mem_cons_of_mem _ hg')) g hg

theorem foldl_addToGroups_wf (l : List FaceImage)
    (gs : List (String × List FaceImage)) (h : GroupsWF gs) :
    GroupsWF (l.foldl addToGroups gs) := by
  induction l generalizing gs with
  | nil => exact h
  | cons a l ih => exact ih _ (addToGroups_wf gs a h)

theorem groupByIdentity_wf (images : List FaceImage) :
    GroupsWF (groupByIdentity images) :=
  foldl_addToGroups_wf images [] ⟨by simp, by simp, by simp⟩

theorem mem_addToGroups (gs : List (String × List FaceImage)) (img x : FaceImage)
    (g : String × List FaceImage) (hg : g ∈ addToGroups gs img) (hx : x ∈ g.2) :
    (∃ g0 ∈ gs, x ∈ g0.2) ∨ x = img := by
  induction gs with
  | nil =>
    simp [addToGroups] at hg
    subst hg
    simp at hx
    exact Or.inr hx
  | cons g0 rest ih =>
    obtain ⟨i, mem⟩ := g0
    by_cases hi : i = img.identity
    · simp only [addToGroups, if_pos hi] at hg
      rcases List.mem_cons.mp hg with hg | hg
      · subst hg
        rcases List.mem_append.mp hx with hx | hx
        · exact Or.inl ⟨⟨i, mem⟩, List.mem_cons_self _ _, hx⟩
        · simp at hx
          exact Or.inr hx
      · exact Or.inl ⟨g, List.mem_cons_of_mem _ hg, hx⟩
    · simp only [addToGroups, if_neg hi] at hg
      rcases List.mem_cons.mp hg with hg | hg
      · subst hg
        exact Or.inl ⟨⟨i, mem⟩, List.mem_cons_self _ _, hx⟩
      · rcases ih hg with ⟨g0, hg0, hx0⟩ | he
        · exact Or.inl ⟨g0, List.mem_cons_of_mem _ hg0, hx0⟩
        · exact Or.inr he

theorem mem_foldl_addToGroups (l : List FaceImage)
    (gs : List (String × List FaceImage)) (x : FaceImage)
    (g : String × List FaceImage) (hg : g ∈ l.foldl addToGroups gs)
    (hx : x ∈ g.2) : (∃ g0 ∈ gs, x ∈ g0.2) ∨ x ∈ l := by
  induction l generalizing gs with
  | nil => exact Or.inl ⟨g, hg, hx⟩
  | cons a l ih =>
    rcases ih (addToGroups gs a) hg with ⟨g0, hg0, hx0⟩ | hl
    · rcases mem_addToGroups gs a x g0 hg0 hx0 with h | h
      · exact Or.inl h
      · exact Or.inr (h ▸ List.mem_cons_self a l)
    · exact Or.inr (List.mem_cons_of_mem _ hl)

/-- Every member of an identity group comes from the input sequence. -/
theorem groupByIdentity_mem_subset (images : List FaceImage)
    (g : String × List FaceImage) (hg : g ∈ groupByIdentity images)
    (x : FaceImage) (hx : x ∈ g.2) : x ∈ images := by
  rcases mem_foldl_addToGroups images [] x g hg hx with ⟨g0, hg0, _⟩ | h
  · simp at hg0
  · exact h

theorem mem_combinations2 {α : Type} (l : List α) (q : α × α)
    (hq : q ∈ combinations2 l) : q.1 ∈ l ∧ q.2 ∈ l := by
  induction l with
  | nil => simp [combinations2] at hq
  | cons x xs ih =>
    simp only [combinations2, List.mem_append, List.mem_map] at hq
    rcases hq with ⟨y, hy, he⟩ | hq
    · subst he
      exact ⟨List.mem_cons_self _ _, List.mem_cons_of_mem _ hy⟩
    · exact ⟨List.mem_cons_of_mem _ (ih hq).1, List.mem_cons_of_mem _ (ih hq).2⟩

/-- Every pair produced by `positivePairs` lies inside one identity group. -/
theorem mem_positivePairs (images : List FaceImage) (p : FacePair)
    (hp : p ∈ positivePairs images) :
    ∃ g ∈ groupByIdentity images, p.first ∈ g.2 ∧ p.second ∈ g.2 := by
  simp only [positivePairs, List.mem_flatMap, List.mem_map] at hp
  obtain ⟨g, hg, q, hq, he⟩ := hp
  subst he
  exact ⟨g, hg, (mem_combinations2 g.2 q hq).1, (mem_combinations2 g.2 q hq).2⟩

theorem positivePairs_same (images : List FaceImage) (p : FacePair)
    (hp : p ∈ positivePairs images) : p.first.identity = p.second.identity := by
  obtain ⟨g, hg, h1, h2⟩ := mem_positivePairs images p hp
  have hid := (groupByIdentity_wf images).1 g hg
  exact (hid p.first h1).trans (hid p.second h2).symm

theorem negativePairs_diff (images : List FaceImage) (p : FacePair)
    (hp : p ∈ negativePairs images) : p.first.identity ≠ p.second.identity := by
  simp only [negativePairs, List.mem_flatMap, List.mem_map, List.mem_filter] at hp
  obtain ⟨g1, hg1, g2, ⟨hg2, hne⟩, a, ha, b, hb, he⟩ := hp
  have hid := (groupByIdentity_wf images).1
  have ha' := hid g1 hg1 a ha
  have hb' := hid g2 hg2 b hb
  subst he
  simp only
  rw [ha', hb']
  exact fun h => (bne_iff_ne.mp hne) h.symm

theorem positivePairs_same_identity (images : List FaceImage) (p : FacePair)
    (hp : p ∈ positivePairs images) : p.same_identity = true := by
  simp [FacePair.same_identity, positivePairs_same images p hp]

theorem negativePairs_same_identity (images : List FaceImage) (p : FacePair)
    (hp : p ∈ negativePairs images) : p.same_identity = false := by
  simp [FacePair.same_identity]
  exact negativePairs_diff images p hp

/-- C2 — `make_pairs(images, same=None, n=None)` returns as many positive
(`same_identity`) pairs as negative ones, for every input sequence: both
classes are truncated to the smaller class's length. -/
theorem make_pairs_balanced (images : List FaceImage) :
    ((make_pairs images none none).filter (fun p => p.same_identity)).length =
      ((make_pairs images none none).filter
        (fun p => !p.same_identity)).length := by
  have hposall : ∀ p ∈ (positivePairs images).take
      (min (positivePairs images).length (negativePairs images).length),
      p.same_identity = true :=
    fun p hp => positivePairs_same_identity images p (List.take_subset _ _ hp)
  have hnegall : ∀ p ∈ (negativePairs images).take
      (min (positivePairs images).length (negativePairs images).length),
      p.same_identity = false :=
    fun p hp => negativePairs_same_identity images p (List.take_subset _ _ hp)
  simp only [make_pairs, List.filter_append]
  rw [List.filter_eq_self.mpr hposall,
    List.filter_eq_nil_iff.mpr (fun p hp => by simp [hnegall p hp]),
    List.filter_eq_nil_iff.mpr (fun p hp => by simp [hposall p hp]),
    List.filter_eq_self.mpr (fun p hp => by simp [hnegall p hp])]
  simp [List.length_take]

/-- C5 — constructing a `FaceTriplet` fails with the `ValueError`-kind
`invalidTriplet` error exactly when the anchor's identity differs from the
positive's or equals the negative's, and every `FaceTriplet` value that
exists satisfies the identity invariant. -/
theorem faceTriplet_invariant :
    (∀ a p n : FaceImage,
      (∃ e, FaceTriplet.make a p n = .error e) ↔
        (a.identity ≠ p.identity ∨ a.identity = n.identity)) ∧
    ∀ t : FaceTriplet,
      t.anchor.identity = t.positive.identity ∧
        t.anchor.identity ≠ t.negative.identity := by
  constructor
  · intro a p n
    unfold FaceTriplet.make
    split_ifs with h1 h2
    · exact iff_of_true ⟨.invalidTriplet, rfl⟩ (Or.inr h2)
    · refine iff_of_false (fun he => ?_) (fun hr => ?_)
      · obtain ⟨e, he⟩ := he
        simp at he
      · rcases hr with h | h
        · exact h h1
        · exact h2 h
    · exact iff_of_true ⟨.invalidTriplet, rfl⟩ (Or.inl h1)
  · exact fun t => ⟨t.pos_eq, t.neg_ne⟩

/-- C3 — on the 11-image fixture, `make_pairs(images, same=False, n=None)`
returns exactly 94 pairs, all negative, with the deterministic enumeration
pinned by the index milestones of `src/tests/test_data.py:235-243`. -/
theorem make_pairs_negative_only_fixture :
    (make_pairs fixture11 (some false) none).length = 94 ∧
    (make_pairs fixture11 (some false) none).all
      (fun p => !p.same_identity) = true ∧
    ((make_pairs fixture11 (some false) none).map
      (fun p => p.first.identity))[0]? = some "TEST-1" ∧
    ((make_pairs fixture11 (some false) none).map
      (fun p => p.first.identity))[24]? = some "TEST-2" ∧
    ((make_pairs fixture11 (some false) none).map
      (fun p => p.first.identity))[48]? = some "TEST-3" ∧
    ((make_pairs fixture11 (some false) none).map
      (fun p => p.first.identity))[66]? = some "TEST-4" ∧
    ((make_pairs fixture11 (some false) none).map
      (fun p => p.first.identity))[84]? = some "TEST-5" := by
  decide

/-- C4 — on the 11-image fixture, `make_pairs(images, same=None, n=10000)`
returns exactly 16 pairs, 8 positive and 8 negative: each class's share of
`n` is capped at its (balanced) availability and the shortfall is not
redistributed. -/
theorem make_pairs_both_large_n_fixture :
    (make_pairs fixture11 none (some 10000)).length = 16 ∧
    ((make_pairs fixture11 none (some 10000)).filter
      (fun p => p.same_identity)).length = 8 ∧
    ((make_pairs fixture11 none (some 10000)).filter
      (fun p => !p.same_identity)).length = 8 := by
  decide

set_option maxRecDepth 100000 in
/-- C1 counterexample — on 40 images forming 10 identity groups of size 4,
`make_triplets` yields 60 triplets (the value asserted by
`src/tests/test_data.py:305-309`), not the claimed
g·⌊s/2⌋·(g−1)·s = 10·2·9·4 = 720; the claimed formula instead describes the
spec's §4.2 prose algorithm (`make_triplets_specProse`), which contradicts
the pinned behaviour. -/
theorem make_triplets_count_formula_cex :
    (make_triplets List.head? data40).length = 60 ∧
    (make_triplets_specProse data40).length = 720 ∧
    (make_triplets List.head? data40).length ≠ 10 * (4 / 2) * ((10 - 1) * 4) := by
  decide

/-- C9 counterexample — on an input whose first identity group has size 3
(`imgs4`), `make_triplets` emits three anchor–positive pairs (0,1), (0,2),
(1,2) from that group: overlapping, including the non-consecutive pair
(0,2), and 3 ≠ ⌊3/2⌋ = 1 pairs, refuting the claim that a group of size k
contributes ⌊k/2⌋ non-overlapping consecutive anchor–positive pairs. -/
theorem make_triplets_consecutive_cex :
    ((make_triplets List.head? imgs4).map (fun t => (t.anchor, t.positive))) =
      [(⟨"0", "A"⟩, ⟨"1", "A"⟩), (⟨"0", "A"⟩, ⟨"2", "A"⟩),
        (⟨"1", "A"⟩, ⟨"2", "A"⟩)] ∧
    (make_triplets List.head? imgs4).length ≠ 1 := by
  decide

theorem length_filterMap_of_forall_some {α β : Type} (F : α → Option β)
    (l : List α) (h : ∀ a ∈ l, ∃ b, F a = some b) :
    (l.filterMap F).length = l.length := by
  induction l with
  | nil => rfl
  | cons x xs ih =>
    obtain ⟨b, hb⟩ := h x (List.mem_cons_self x xs)
    simp [List.filterMap_cons, hb,
      ih (fun a ha => h a (List.mem_cons_of_mem _ ha))]

theorem map_filterMap_of_forall_some {α β γ : Type} (F : α → Option β)
    (p : β → γ) (q : α → γ) (l : List α)
    (h : ∀ a ∈ l, ∃ b, F a = some b ∧ p b = q a) :
    (l.filterMap F).map p = l.map q := by
  induction l with
  | nil => rfl
  | cons x xs ih =>
    obtain ⟨b, hb, hpb⟩ := h x (List.mem_cons_self x xs)
    simp [List.filterMap_cons, hb, hpb,
      ih (fun a ha => h a (List.mem_cons_of_mem _ ha))]

theorem combinations2_length_two_mul {α : Type} (l : List α) :
    2 * (combinations2 l).length = l.length * (l.length - 1) := by
  induction l with
  | nil => rfl
  | cons x xs ih =>
    simp only [combinations2, List.length_append, List.length_map,
      List.length_cons, Nat.succ_sub_one]
    have key : (xs.length + 1) * xs.length =
        xs.length * (xs.length - 1) + 2 * xs.length := by
      cases xs.length with
      | zero => rfl
      | succ m =>
        simp only [Nat.succ_sub_one]
        ring
    linarith [key, ih]

theorem combinations2_length {α : Type} (l : List α) :
    (combinations2 l).length = l.length * (l.length - 1) / 2 := by
  have h := combinations2_length_two_mul l
  generalize hK : l.length * (l.length - 1) = K at h ⊢
  omega

theorem sum_map_const_of_forall {α : Type} (l : List α) (f : α → Nat) (c : Nat)
    (h : ∀ a ∈ l, f a = c) : (l.map f).sum = l.length * c := by
  induction l with
  | nil => simp
  | cons x xs ih =>
    rw [List.map_cons, List.sum_cons, h x (List.mem_cons_self x xs),
      ih (fun a ha => h a (List.mem_cons_of_mem _ ha)), List.length_cons,
      Nat.succ_mul, Nat.add_comm]

theorem positivePairs_length (images : List FaceImage) :
    (positivePairs images).length =
      ((groupByIdentity images).map
        (fun g => (combinations2 g.2).length)).sum := by
  simp only [positivePairs, List.length_flatMap]
  have he : (List.length ∘ fun g : String × List FaceImage =>
      List.map (fun q => FacePair.mk q.1 q.2) (combinations2 g.2)) =
      fun g : String × List FaceImage => (combinations2 g.2).length := by
    funext g
    simp [Function.comp, List.length_map]
  rw [he]

/-- A selection function standing in for `random.choice`: on every nonempty
candidate list it returns one of its elements. -/
def SelValid (sel : List FaceImage → Option FaceImage) : Prop :=
  ∀ l, l ≠ [] → ∃ x, sel l = some x ∧ x ∈ l

theorem selValid_head : SelValid List.head? := by
  intro l hl
  match l with
  | x :: xs => exact ⟨x, rfl, List.mem_cons_self x xs⟩

theorem exists_other_group (gs : List (String × List FaceImage))
    (hnd : (gs.map Prod.fst).Nodup) (h2 : 2 ≤ gs.length) (k : String) :
    ∃ g ∈ gs, g.1 ≠ k := by
  match gs with
  | a :: b :: rest =>
    have hab : a.1 ≠ b.1 := by
      rw [List.map_cons, List.map_cons, List.nodup_cons] at hnd
      exact fun h => hnd.1 (h ▸ List.mem_cons_self _ _)
    by_cases ha : a.1 = k
    · refine ⟨b, List.mem_cons_of_mem _ (List.mem_cons_self _ _), fun hb => ?_⟩
      exact hab (ha.trans hb.symm)
    · exact ⟨a, List.mem_cons_self _ _, ha⟩

/-- With at least two identity groups and any element-returning selection
function, the triplet constructed for an anchor–positive pair always exists
and carries that anchor and positive. -/
theorem make_triplets_step_some (sel : List FaceImage → Option FaceImage)
    (images : List FaceImage) (hsel : SelValid sel)
    (h2 : 2 ≤ (groupByIdentity images).length)
    (pr : FacePair) (hpr : pr ∈ positivePairs images) :
    ∃ t : FaceTriplet,
      ((sel (images.filter
          (fun img => img.identity != pr.first.identity))).bind
        (fun neg => (FaceTriplet.make pr.first pr.second neg).toOption))
        = some t ∧ t.anchor = pr.first ∧ t.positive = pr.second := by
  obtain ⟨g, hg, hf, _⟩ := mem_positivePairs images pr hpr
  obtain ⟨hid, hnd, hne⟩ := groupByIdentity_wf images
  have hk : pr.first.identity = g.1 := hid g hg pr.first hf
  obtain ⟨g', hg', hkne⟩ := exists_other_group (groupByIdentity images) hnd h2 g.1
  obtain ⟨x, hx⟩ := List.exists_mem_of_ne_nil g'.2 (hne g' hg')
  have hxi : x ∈ images := groupByIdentity_mem_subset images g' hg' x hx
  have hxid : x.identity ≠ pr.first.identity := by
    rw [hid g' hg' x hx, hk]
    exact hkne
  have hxc : x ∈ images.filter (fun img => img.identity != pr.first.identity) :=
    List.mem_filter.mpr ⟨hxi, bne_iff_ne.mpr hxid⟩
  obtain ⟨neg, hneg, hnegmem⟩ :=
    hsel _ (List.ne_nil_of_mem hxc)
  have hnegid : neg.identity ≠ pr.first.identity :=
    bne_iff_ne.mp (List.mem_filter.mp hnegmem).2
  have hps : pr.first.identity = pr.second.identity :=
    positivePairs_same images pr hpr
  refine ⟨⟨pr.first, pr.second, neg, hps, fun h => hnegid h.symm⟩, ?_, rfl, rfl⟩
  rw [hneg, Option.some_bind, FaceTriplet.make,
    dif_pos hps, dif_neg (fun h => hnegid h.symm)]
  rfl

/-- C1 amended — for g ≥ 2 equal-sized identity groups of size s each, and
every outcome of the negative draw, `make_triplets` returns exactly
g·C(s,2) = g·(s·(s−1)/2) triplets: one per intra-group anchor–positive
combination (on the 40-image fixture: 10·6 = 60, not 10·⌊4/2⌋·(10−1)·4). -/
theorem make_triplets_count_equal_groups
    (sel : List FaceImage → Option FaceImage) (images : List FaceImage)
    (g s : Nat) (hsel : SelValid sel)
    (hg : (groupByIdentity images).length = g)
    (hs : ∀ grp ∈ groupByIdentity images, grp.2.length = s)
    (h2 : 2 ≤ g) :
    (make_triplets sel images).length = g * (s * (s - 1) / 2) := by
  unfold make_triplets
  rw [length_filterMap_of_forall_some _ _ (fun pr hpr =>
    (make_triplets_step_some sel images hsel (hg ▸ h2) pr hpr).imp
      (fun t ht => ht.1))]
  rw [positivePairs_length, sum_map_const_of_forall _ _ (s * (s - 1) / 2)
    (fun grp hgrp => by rw [combinations2_length, hs grp hgrp]), hg]

/-- C1 witness — the general count theorem instantiated on the 40-image
fixture (10 identity groups of size 4, negatives drawn by `List.head?`):
10 · (4·3/2) = 60 triplets. -/
theorem make_triplets_count_equal_groups_witness :
    (make_triplets List.head? data40).length = 10 * (4 * (4 - 1) / 2) :=
  make_triplets_count_equal_groups List.head? data40 10 4 selValid_head
    (by decide) (by decide) (by decide)

/-- C9 amended — `make_triplets` forms its anchor–positive pairs as *all*
C(k,2) intra-group combinations in `positivePairs` order (not ⌊k/2⌋
consecutive non-overlapping pairs): for every element-returning selection
function and input with at least two identity groups, the (anchor, positive)
projection of the triplet list is exactly the positive-pair list.  On the
10-image fixture with 5 identity groups of size 2 (where C(2,2) = 1 and the
single combination is the consecutive one) this gives exactly 5 triplets
with triplet i's anchor at input position 2i and positive at 2i+1. -/
theorem make_triplets_anchor_positive :
    (∀ (sel : List FaceImage → Option FaceImage) (images : List FaceImage),
      SelValid sel → 2 ≤ (groupByIdentity images).length →
      (make_triplets sel images).map (fun t => (t.anchor, t.positive)) =
        (positivePairs images).map (fun p => (p.first, p.second))) ∧
    (make_triplets List.head? data10).length = 5 ∧
    (∀ i : Fin 5,
      ((make_triplets List.head? data10).map (fun t => t.anchor))[i.1]? =
        data10[2 * i.1]? ∧
      ((make_triplets List.head? data10).map (fun t => t.positive))[i.1]? =
        data10[2 * i.1 + 1]?) := by
  refine ⟨?_, by decide, by decide⟩
  intro sel images hsel h2
  unfold make_triplets
  exact map_filterMap_of_forall_some _ _ _ _ (fun pr hpr =>
    (make_triplets_step_some sel images hsel h2 pr hpr).imp
      (fun t ht => ⟨ht.1, by simp [ht.2.1, ht.2.2]⟩))

/-- C9 witness — the general anchor–positive characterization instantiated
on the 10-image fixture with negatives drawn by `List.head?`. -/
theorem make_triplets_anchor_positive_witness :
    (make_triplets List.head? data10).map (fun t => (t.anchor, t.positive)) =
      (positivePairs data10).map (fun p => (p.first, p.second)) :=
  make_triplets_anchor_positive.1 List.head? data10 selValid_head (by decide)

/-- Modelled from the spec (§4.3, §9): the explicit seedable generator
injected into `split_by_identity`.  A linear-congruential step stands in for
the Python `random` source; the theorems below quantify over the state, so
they hold for every outcome of the randomness. -/
structure Rng where
  state : Nat
deriving DecidableEq, Repr

/-- One step of the linear-congruential generator. -/
def Rng.next (r : Rng) : Nat × Rng :=
  let s := (r.state * 1103515245 + 12345) % 2147483648
  (s, ⟨s⟩)

/-- Modelled from the spec: seeding resets the generator to a state that is a
function of the seed alone. -/
def Rng.ofSeed (seed : Nat) : Rng :=
  ⟨seed % 2147483648⟩

/-- Fisher–Yates-style shuffle driven by the generator, with an explicit
recursion budget (`shuffle` always supplies the list length, which suffices:
each step removes one element). -/
def shuffleAux {α : Type} [DecidableEq α] :
    Nat → Rng → List α → List α × Rng
  | 0, r, _ => ([], r)
  | _ + 1, r, [] => ([], r)
  | n + 1, r, a :: as =>
      let p := Rng.next r
      let x := (a :: as).get ⟨p.1 % (a :: as).length, Nat.mod_lt _ (by simp)⟩
      let q := shuffleAux n p.2 ((a :: as).erase x)
      (x :: q.1, q.2)

/-- Modelled from the spec (§4.3): "randomly permuting identity groups". -/
def shuffle {α : Type} [DecidableEq α] (r : Rng) (l : List α) :
    List α × Rng :=
  shuffleAux l.length r l

theorem shuffleAux_perm {α : Type} [DecidableEq α] :
    ∀ (n : Nat) (r : Rng) (l : List α), l.length ≤ n →
      (shuffleAux n r l).1.Perm l := by
  intro n
  induction n with
  | zero =>
    intro r l hl
    rw [List.length_eq_zero.mp (Nat.le_zero.mp hl)]
    exact List.Perm.refl _
  | succ n ih =>
    intro r l hl
    match l with
    | [] => exact List.Perm.refl _
    | a :: as =>
      simp only [shuffleAux]
      have hx : (a :: as).get
          ⟨(Rng.next r).1 % (a :: as).length,
            Nat.mod_lt _ (by simp)⟩ ∈ a :: as := List.get_mem _ _ _
      have hlen : ((a :: as).erase ((a :: as).get
          ⟨(Rng.next r).1 % (a :: as).length, Nat.mod_lt _ (by simp)⟩)).length
          ≤ n := by
        rw [List.length_erase_of_mem hx]
        simp only [List.length_cons] at hl ⊢
        omega
      exact (List.Perm.cons _ (ih _ _ hlen)).trans
        (List.perm_cons_erase hx).symm

theorem shuffle_perm {α : Type} [DecidableEq α] (r : Rng) (l : List α) :
    (shuffle r l).1.Perm l :=
  shuffleAux_perm l.length r l (Nat.le_refl _)

/-- Modelled from the spec (§4.3): greedily accumulate permuted identity
groups into the test partition until the accumulated image count `acc`
reaches or exceeds the target fraction of the total; the remainder goes to
train.  The rational threshold `acc ≥ (num/den)·total` is compared in exact
integer arithmetic as `tnum ≤ acc·den` with `tnum = num·total`, equivalent
because a rational's denominator is positive.  Returns
(test groups, train groups). -/
def greedyTake (tnum : Int) (den : Nat) (acc : Nat) :
    List (String × List FaceImage) →
      List (String × List FaceImage) × List (String × List FaceImage)
  | [] => ([], [])
  | g :: rest =>
      if tnum ≤ (acc : Int) * (den : Int) then ([], g :: rest)
      else
        let q := greedyTake tnum den (acc + g.2.length) rest
        (g :: q.1, q.2)

theorem greedyTake_append (tnum : Int) (den : Nat) :
    ∀ (l : List (String × List FaceImage)) (acc : Nat),
      (greedyTake tnum den acc l).1 ++ (greedyTake tnum den acc l).2 = l := by
  intro l
  induction l with
  | nil => intro acc; rfl
  | cons g rest ih =>
    intro acc
    simp only [greedyTake]
    split
    · rfl
    · simp [ih (acc + g.2.length)]

/-- Modelled from the spec (§4.3): `split_by_identity(images, test_size,
seed)`.  Identities (whole groups, never individual images) are partitioned:
groups are shuffled, then greedily accumulated into the test set until the
target image count `test_size · |images|` is reached or exceeded, with the
remainder going to train.  Returns ((train, test), next generator state); an
explicit seed resets the generator, `none` uses the ambient state `r` —
the model of Python's process-global `random` state. -/
def split_by_identity (images : List FaceImage) (test_size : ℚ)
    (seed : Option Nat) (r : Rng) :
    (List FaceImage × List FaceImage) × Rng :=
  let r0 := match seed with
    | some s => Rng.ofSeed s
    | none => r
  let q := shuffle r0 (groupByIdentity images)
  let parts := greedyTake (test_size.num * (images.length : Int))
    test_size.den 0 q.1
  ((parts.2.flatMap Prod.snd, parts.1.flatMap Prod.snd), q.2)

/-- C6 — for every input, every `test_size`, every seeding choice and every
ambient generator state, the train and test lists returned by
`split_by_identity` have disjoint identity sets. -/
theorem split_by_identity_disjoint (images : List FaceImage) (test_size : ℚ)
    (seed : Option Nat) (r : Rng) (id : String)
    (h : id ∈ ((split_by_identity images test_size seed r).1.1.map
      FaceImage.identity)) :
    id ∉ ((split_by_identity images test_size seed r).1.2.map
      FaceImage.identity) := by
  intro h'
  simp only [split_by_identity, List.mem_map, List.mem_flatMap] at h h'
  obtain ⟨x, ⟨g, hg, hxg⟩, hxid⟩ := h
  obtain ⟨y, ⟨g', hg', hyg⟩, hyid⟩ := h'
  set r0 := match seed with
    | some s => Rng.ofSeed s
    | none => r with hr0
  set q := shuffle r0 (groupByIdentity images) with hq
  set parts := greedyTake (test_size.num * (images.length : Int))
    test_size.den 0 q.1 with hparts
  have hperm : q.1.Perm (groupByIdentity images) := shuffle_perm r0 _
  obtain ⟨hid, hnd, _⟩ := groupByIdentity_wf images
  have hgm : g ∈ groupByIdentity images :=
    hperm.mem_iff.mp (by
      rw [← greedyTake_append (test_size.num * (images.length : Int))
        test_size.den q.1 0]
      exact List.mem_append.mpr (Or.inr hg))
  have hgm' : g' ∈ groupByIdentity images :=
    hperm.mem_iff.mp (by
      rw [← greedyTake_append (test_size.num * (images.length : Int))
        test_size.den q.1 0]
      exact List.mem_append.mpr (Or.inl hg'))
  have hxk : id = g.1 := by rw [← hxid]; exact hid g hgm x hxg
  have hyk : id = g'.1 := by rw [← hyid]; exact hid g' hgm' y hyg
  have hndq : (q.1.map Prod.fst).Nodup := (hperm.map Prod.fst).nodup_iff.mpr hnd
  have hsplit : parts.1.map Prod.fst ++ parts.2.map Prod.fst =
      q.1.map Prod.fst := by
    rw [← List.map_append, greedyTake_append]
  rw [← hsplit] at hndq
  have hdisj := (List.nodup_append.mp hndq).2.2
  exact hdisj (hyk ▸ List.mem_map_of_mem Prod.fst hg')
    (hxk ▸ List.mem_map_of_mem Prod.fst hg)

/-- The rational 1/2 written in normal form, so that concrete runs of
`split_by_identity` reduce inside the kernel. -/
def halfRat : ℚ := ⟨1, 2, by omega, Nat.coprime_one_left 2⟩

/-- C6 witness — on a concrete two-identity input with `test_size = 1/2`,
the ambient generator state ⟨0⟩ and no seed, the identity found in the
train list is absent from the test list. -/
theorem split_by_identity_disjoint_witness :
    ("A" ∈ ((split_by_identity [⟨"a", "A"⟩, ⟨"b", "B"⟩] halfRat none
        ⟨0⟩).1.1.map FaceImage.identity)) ∧
      "A" ∉ ((split_by_identity [⟨"a", "A"⟩, ⟨"b", "B"⟩] halfRat none
        ⟨0⟩).1.2.map FaceImage.identity) :=
  ⟨by decide, split_by_identity_disjoint [⟨"a", "A"⟩, ⟨"b", "B"⟩] halfRat none
    ⟨0⟩ "A" (by decide)⟩

/-- C10 — `split_by_identity` accepts an optional seed, and two calls with
the same images, the same `test_size` and the same seed return identical
train/test splits regardless of the ambient generator state of either call
(the model of two independent runs). -/
theorem split_by_identity_seed_deterministic (images : List FaceImage)
    (test_size : ℚ) (s : Nat) (r1 r2 : Rng) :
    (split_by_identity images test_size (some s) r1).1 =
      (split_by_identity images test_size (some s) r2).1 := rfl

/-- Modelled from the spec (§4.4, §6): a decoded pixel array with its shape.
Pixel values are whatever the external decoder produced, passed through
unmodified except for augmentation. -/
structure Img where
  height : Nat
  width : Nat
  pixels : List Int
deriving DecidableEq, Repr

/-- All decoded images share one shape (the stacking precondition). -/
def sameShapes : List Img → Bool
  | [] => true
  | d :: ds => ds.all (fun y => y.height == d.height && y.width == d.width)

/-- Modelled from the spec (§4.4): `to_array` on a sequence of `FaceImage`.
The external image decoder (`FaceImage.get_image`) is the parameter
`decode`, taking the optional target resolution; `aug` is the optional
augmenter applied per image after decoding.  Fails fast with a
`ValueError`-kind error — returning no partial result — when the input is
empty, or when no explicit resolution is given and the decoded shapes
disagree. -/
def to_array (decode : FaceImage → Option (Nat × Nat) → Img)
    (images : List FaceImage) (resolution : Option (Nat × Nat))
    (aug : Option (Img → Img)) : Except DataError (List Img) :=
  match images with
  | [] => .error .emptyInput
  | _ :: _ =>
      let decoded := images.map (fun im => decode im resolution)
      if resolution.isNone && !sameShapes decoded then .error .shapeMismatch
      else .ok (decoded.map (fun d => (aug.getD id) d))

/-- Modelled from the spec (§4.4): the augmenter argument accepted by the
pair variant of `to_array`: omitted, a single function applied to both
slots, or a per-slot 2-tuple of function-or-None. -/
inductive PairAug where
  | noAug : PairAug
  | single : (Img → Img) → PairAug
  | perSlot : Option (Img → Img) → Option (Img → Img) → PairAug

/-- The transform the augmenter argument applies to the first slot. -/
def PairAug.fstFn : PairAug → Img → Img
  | .noAug => id
  | .single f => f
  | .perSlot f _ => f.getD id

/-- The transform the augmenter argument applies to the second slot. -/
def PairAug.sndFn : PairAug → Img → Img
  | .noAug => id
  | .single f => f
  | .perSlot _ g => g.getD id

/-- Modelled from the spec (§4.4): `to_array` on a sequence of `FacePair`
returns two stacked arrays (all first images, all second images), each slot
augmented independently by its slot's transform. -/
def to_array_pairs (decode : FaceImage → Option (Nat × Nat) → Img)
    (pairs : List FacePair) (resolution : Option (Nat × Nat))
    (aug : PairAug) : Except DataError (List Img × List Img) :=
  match pairs with
  | [] => .error .emptyInput
  | _ :: _ =>
      let firsts := pairs.map (fun p => decode p.first resolution)
      let seconds := pairs.map (fun p => decode p.second resolution)
      if resolution.isNone && !sameShapes (firsts ++ seconds) then
        .error .shapeMismatch
      else .ok (firsts.map aug.fstFn, seconds.map aug.sndFn)

/-- C7 — `to_array` fails with a `ValueError`-kind error on an empty input
sequence, and, when no explicit resolution is given, on images whose decoded
shapes differ; in both cases the `Except` result carries no partial
output. -/
theorem to_array_error_conditions :
    (∀ (decode : FaceImage → Option (Nat × Nat) → Img)
      (resolution : Option (Nat × Nat)) (aug : Option (Img → Img)),
      to_array decode [] resolution aug = .error .emptyInput) ∧
    (∀ (decode : FaceImage → Option (Nat × Nat) → Img)
      (images : List FaceImage) (aug : Option (Img → Img)),
      images ≠ [] →
      sameShapes (images.map (fun im => decode im none)) = false →
      to_array decode images none aug = .error .shapeMismatch) := by
  constructor
  · intro decode resolution aug
    rfl
  · intro decode images aug hne hmis
    match images with
    | im :: rest =>
      simp only [to_array]
      rw [if_pos]
      rw [hmis]
      rfl

/-- C7 witness — a decoder under which the two concrete images have shapes
(1,1) and (2,2): with no explicit resolution `to_array` reports the shape
mismatch (and the empty-input half applied to a concrete decoder). -/
theorem to_array_error_conditions_witness :
    to_array (fun im _ => ⟨im.identity.length, im.identity.length, []⟩) [] none
        none = .error .emptyInput ∧
      to_array (fun im _ => ⟨im.identity.length, im.identity.length, []⟩)
        [⟨"", "a"⟩, ⟨"", "bb"⟩] none none = .error .shapeMismatch :=
  ⟨to_array_error_conditions.1 _ none none,
    to_array_error_conditions.2 _ [⟨"", "a"⟩, ⟨"", "bb"⟩] none (by decide)
      (by decide)⟩

/-- C8 — `to_array` on pairs with `augmenter=(f, None)` applies `f` only to
the first-slot array: the second-slot array coincides with that of the same
call without augmenter, and the first-slot array is the unaugmented
first-slot array mapped through `f` (errors, when any, are identical). -/
theorem to_array_pairs_augment_first_only
    (decode : FaceImage → Option (Nat × Nat) → Img) (pairs : List FacePair)
    (resolution : Option (Nat × Nat)) (f : Img → Img) :
    (to_array_pairs decode pairs resolution (.perSlot (some f) none)).map
        Prod.snd =
      (to_array_pairs decode pairs resolution .noAug).map Prod.snd ∧
    (to_array_pairs decode pairs resolution (.perSlot (some f) none)).map
        Prod.fst =
      (to_array_pairs decode pairs resolution .noAug).map
        (fun slots => slots.1.map f) := by
  match pairs with
  | [] => exact ⟨rfl, rfl⟩
  | p :: rest =>
    simp only [to_array_pairs]
    split
    · exact ⟨rfl, rfl⟩
    · constructor
      · simp [Except.map, PairAug.sndFn, PairAug.fstFn]
      · simp [Except.map, PairAug.sndFn, PairAug.fstFn]

end LrFace
